import Mathlib

/-!
# Verification of the EMA crossover bot (`mainbot.py`)

Shallow embedding of the pure logic of the bot: prices are modelled as
exact rationals, pandas Series as `List ℚ`, the DataFrame passed to
`get_signals` as a structure with a `close` column and the two optional
EMA columns the function writes, and fallible evaluation (`iloc` out of
range) as `Option`.
-/

namespace EMABot

/-- The signal values returned by `get_signals`: the Python strings
`'buy'`, `'sell'` and the Python value `None`. -/
inductive Signal
  | buy
  | sell
  | none
  deriving DecidableEq, Repr

/-- One step of the exponential moving average recurrence with smoothing
factor `a`: the running value after seeing price `c` with previous value
`e` is `a*c + (1-a)*e`. -/
def ema_step (a e c : ℚ) : ℚ := a * c + (1 - a) * e

/-- The tail of `Series.ewm(adjust=False).mean()` after the seed `e`:
each output is `a*c + (1-a)*previous`. -/
def ema_from (a e : ℚ) : List ℚ → List ℚ
  | [] => []
  | c :: cs => ema_step a e c :: ema_from a (ema_step a e c) cs

/-- Pandas `Series.ewm(alpha=a, adjust=False).mean()`: seeded from the first
value, then the recurrence `eₜ = a*cₜ + (1-a)*eₜ₋₁`. -/
def ewm_mean (a : ℚ) : List ℚ → List ℚ
  | [] => []
  | c :: cs => c :: ema_from a c cs

/-- Function `calculate_ema(df, window)` from `mainbot.py`:
`df['close'].ewm(span=window, adjust=False).mean()`; with `span=window`
pandas uses smoothing factor `2/(window+1)`. -/
def calculate_ema (close : List ℚ) (window : ℕ) : List ℚ :=
  ewm_mean (2 / ((window : ℚ) + 1)) close

/-- Pandas `series.iloc[-(k+1)]`: the `k`-th element from
the end, an `IndexError` (here `Option.none`) when out of range. -/
def ilocNeg (l : List ℚ) (k : ℕ) : Option ℚ := l.reverse[k]?

/-- Function `get_signals(df)` from `mainbot.py`, restricted to the signal it
returns (the column writes are modelled by `get_signals_df` below).
Compares the 50- and 200-window EMAs at the last two rows, with
Python's evaluation order: the `iloc[-1]` accesses raise (outer
`Option.none`) on an empty frame; the `iloc[-2]` accesses are reached —
and raise on a 1-row frame — only when the `iloc[-1]` comparison
guarding them is true, since `and` short-circuits and the `elif` is
only evaluated when the `if` condition is false. -/
def get_signals (close : List ℚ) : Option Signal :=
  let ema50 := calculate_ema close 50
  let ema200 := calculate_ema close 200
  match ilocNeg ema50 0, ilocNeg ema200 0 with
  | some f1, some s1 =>
      if s1 < f1 then
        match ilocNeg ema50 1, ilocNeg ema200 1 with
        | some f2, some s2 =>
            if f2 ≤ s2 then some Signal.buy else some Signal.none
        | _, _ => Option.none
      else if f1 < s1 then
        match ilocNeg ema50 1, ilocNeg ema200 1 with
        | some f2, some s2 =>
            if s2 ≤ f2 then some Signal.sell else some Signal.none
        | _, _ => Option.none
      else some Signal.none
  | _, _ => Option.none


/-- The DataFrame handed to `get_signals`: a `close` column plus the two
EMA columns that `get_signals` writes into it (absent, i.e. `none`,
until written). -/
structure DataFrame where
  close : List ℚ
  ema_50 : Option (List ℚ)
  ema_200 : Option (List ℚ)
  deriving DecidableEq, Repr

/-- Function `get_signals(df)` including its effect on the frame: the assignments
`df['ema_50'] = ...` and `df['ema_200'] = ...` mutate the caller's
DataFrame in place, so the result is the updated frame together with the
returned signal. -/
def get_signals_df (df : DataFrame) : DataFrame × Option Signal :=
  ({ df with
      ema_50 := some (calculate_ema df.close 50)
      ema_200 := some (calculate_ema df.close 200) },
    get_signals df.close)

/-- Default `RISK_PERCENT` (env default `1`). -/
def RISK_PERCENT : ℚ := 1

/-- Default `STOP_LOSS_PERCENT` (env default `0.02`). -/
def STOP_LOSS_PERCENT : ℚ := 2 / 100

/-- Default `TAKE_PROFIT_PERCENT` (env default `0.04`). -/
def TAKE_PROFIT_PERCENT : ℚ := 4 / 100

/-- Function `calculate_position_size(account_balance, risk_percent)`:
`account_balance * (risk_percent / 100)`. -/
def calculate_position_size (account_balance : ℚ) (risk_percent : ℚ) : ℚ :=
  account_balance * (risk_percent / 100)

/-- Function `set_stop_loss_and_take_profit(entry_price, direction, ...)`: for
`'buy'` the pair `(entry*(1-sl_pct), entry*(1+tp_pct))`, for every other
direction (the `else` branch, used for `'sell'`) the pair
`(entry*(1+sl_pct), entry*(1-tp_pct))`. -/
def set_stop_loss_and_take_profit (entry_price : ℚ) (direction : Signal)
    (stop_loss_pct : ℚ) (take_profit_pct : ℚ) : ℚ × ℚ :=
  if direction = Signal.buy then
    (entry_price * (1 - stop_loss_pct), entry_price * (1 + take_profit_pct))
  else
    (entry_price * (1 + stop_loss_pct), entry_price * (1 - take_profit_pct))

/-- An open position as read from the terminal: the fields of the MT5
position object that `adjust_stop_loss` uses. -/
structure Position where
  ticket : ℕ
  volume : ℚ
  price_open : ℚ
  profit : ℚ
  deriving DecidableEq, Repr

/-- The `TRADE_ACTION_SLTP` request that `adjust_stop_loss` builds:
position ticket and new stop-loss. -/
structure SLTPRequest where
  position : ℕ
  sl : ℚ
  deriving DecidableEq, Repr

/-- Function `adjust_stop_loss(position)`: when
`position.profit / position.volume >= position.price_open * 0.02` it
sends a request moving the stop-loss to the entry price, otherwise it
sends nothing. -/
def adjust_stop_loss (position : Position) : Option SLTPRequest :=
  if position.price_open * (2 / 100) ≤ position.profit / position.volume then
    some ⟨position.ticket, position.price_open⟩
  else Option.none

/-- A Python `datetime.time` value: hour, minute, second, microsecond. -/
structure TimeOfDay where
  hour : ℕ
  minute : ℕ
  second : ℕ
  microsecond : ℕ
  deriving DecidableEq, Repr

/-- Python's ordering on `datetime.time`: lexicographic on
(hour, minute, second, microsecond). -/
def TimeOfDay.le (t u : TimeOfDay) : Prop :=
  t.hour < u.hour ∨ (t.hour = u.hour ∧
    (t.minute < u.minute ∨ (t.minute = u.minute ∧
      (t.second < u.second ∨ (t.second = u.second ∧
        t.microsecond ≤ u.microsecond)))))

instance (t u : TimeOfDay) : Decidable (TimeOfDay.le t u) := by
  unfold TimeOfDay.le; infer_instance

/-- Microseconds since midnight, the linear measure of a time of day. -/
def TimeOfDay.toMicro (t : TimeOfDay) : ℕ :=
  t.hour * 3600000000 + t.minute * 60000000 + t.second * 1000000 +
    t.microsecond

/-- Python `dt_time(8, 0)`, the start of the trading window. -/
def trading_start : TimeOfDay := ⟨8, 0, 0, 0⟩

/-- Python `dt_time(12, 0)`, the end of the trading window. -/
def trading_end : TimeOfDay := ⟨12, 0, 0, 0⟩

/-- Function `is_within_trading_hours()` from `mainbot.py`, parameterised by the
current time of day `now` in the configured timezone
(`datetime.now(TIMEZONE).time()`): `start <= now <= end`. -/
def is_within_trading_hours (now : TimeOfDay) : Bool :=
  decide (TimeOfDay.le trading_start now ∧ TimeOfDay.le now trading_end)

/-- The `number_of_data` default of `get_rates`: `main` calls
`get_rates(SYMBOL)` with the default, so 200 bars are requested. -/
def number_of_data : ℕ := 200

/-- Function `get_rates(symbol, ...)` given the terminal's reply to
`copy_rates_from_pos`: `None` (an error, logged) when the reply is
`None` or empty, otherwise the bars as a DataFrame. -/
def get_rates (reply : Option (List ℚ)) : Option (List ℚ) :=
  match reply with
  | Option.none => Option.none
  | some rates => if rates.length = 0 then Option.none else some rates

/-- Python truthiness of the value `get_signals` returns: the strings
`'buy'`/`'sell'` are truthy, `None` is falsy (`if signal and ...`). -/
def signal_truthy : Option Signal → Bool
  | some Signal.buy => true
  | some Signal.sell => true
  | _ => false

/-- The observable steps of one iteration of the `while True` loop in
`main`, in program order. -/
inductive Action
  | logError
  | logWarning
  | trade
  | adjust (ticket : ℕ)
  | sleep (seconds : ℕ)
  deriving DecidableEq, Repr

/-- The external world as one loop iteration observes it: whether the
clock is inside the trading window, the `account_info()` reply, the
`copy_rates_from_pos` reply, the open positions, and whether
`max_open_positions` finds room for another trade. -/
structure Env where
  withinHours : Bool
  accountInfo : Option ℚ
  ratesReply : Option (List ℚ)
  positions : List Position
  canOpenMore : Bool

/-- The news/rates/signal/trade block of the loop body (from
`check_major_news_events()` through `trade(...)`): the actions it emits,
and `false` when `get_signals` raises (fewer than 2 bars), which aborts
the iteration into the `except` handler. `check_major_news_events` is a
stub that logs a warning and returns `True`. -/
def trade_block (env : Env) : List Action × Bool :=
  match get_rates env.ratesReply with
  | Option.none => ([Action.logWarning, Action.logError], true)
  | some rates_df =>
      match get_signals rates_df with
      | Option.none => ([Action.logWarning], false)
      | some signal =>
          if signal_truthy (some signal) && env.canOpenMore then
            ([Action.logWarning, Action.trade], true)
          else ([Action.logWarning], true)

/-- One iteration of the `while True` loop in `main`: outside trading
hours only the 4-hour sleep runs; inside, a failed `account_info()`
fetch logs and `continue`s (nothing else runs, no sleep); otherwise the
trade block runs, then every open position is re-evaluated by
`adjust_stop_loss`, then the 4-hour sleep; an exception inside the body
is logged and followed by the 60-second backoff. -/
def main_iteration (env : Env) : List Action :=
  if env.withinHours then
    match env.accountInfo with
    | Option.none => [Action.logError]
    | some _balance =>
        match trade_block env with
        | (acts, true) =>
            acts ++ env.positions.map (fun p => Action.adjust p.ticket) ++
              [Action.sleep (60 * 60 * 4)]
        | (acts, false) => acts ++ [Action.logError, Action.sleep 60]
  else [Action.sleep (60 * 60 * 4)]

/-- The EMA recurrence exactly as the spec states it, reading the `t`-th
closing price of the list: `e₀ = c₀` and `eₜ = a*cₜ + (1-a)*eₜ₋₁` with
smoothing factor `a`. Used to compare `calculate_ema` against the
spec. -/
def ema_spec_rec (a : ℚ) (close : List ℚ) : ℕ → ℚ
  | 0 => close.getD 0 0
  | t + 1 => a * close.getD (t + 1) 0 + (1 - a) * ema_spec_rec a close t

/-- The EMA recurrence over an infinite price series `p`, used to state
the crossover property for monotone series. -/
def emaF (a : ℚ) (p : ℕ → ℚ) : ℕ → ℚ
  | 0 => p 0
  | t + 1 => a * p (t + 1) + (1 - a) * emaF a p t

/-- The bars `p 0, …, p t` of a price series, the input to the signal
calculator when it is evaluated ending at bar `t`. -/
def bars (p : ℕ → ℚ) (t : ℕ) : List ℚ :=
  (List.range (t + 1)).map p

/-- The fast (50-window) EMA crossed above the slow (200-window) EMA
between bars `t-1` and `t`: at `t-1` the fast one was `≤` the slow one,
at `t` it is strictly above. -/
def crossAbove (p : ℕ → ℚ) (t : ℕ) : Prop :=
  emaF (2 / 51) p (t - 1) ≤ emaF (2 / 201) p (t - 1) ∧
    emaF (2 / 201) p t < emaF (2 / 51) p t

/-- The fast EMA crossed below the slow EMA between bars `t-1` and `t`. -/
def crossBelow (p : ℕ → ℚ) (t : ℕ) : Prop :=
  emaF (2 / 201) p (t - 1) ≤ emaF (2 / 51) p (t - 1) ∧
    emaF (2 / 51) p t < emaF (2 / 201) p t

/-- The value at offset `t` of `ema_from a e cs`: the recurrence seeded
with previous value `e` just before the prices `cs`. -/
def ema_from_val (a e : ℚ) (cs : List ℚ) : ℕ → ℚ
  | 0 => ema_step a e (cs.getD 0 0)
  | t + 1 => ema_step a (ema_from_val a e cs t) (cs.getD (t + 1) 0)

/-! ## Basic lemmas about the EMA lists -/

theorem length_ema_from (a e : ℚ) (cs : List ℚ) :
    (ema_from a e cs).length = cs.length := by
  induction cs generalizing e with
  | nil => rfl
  | cons c cs ih => simp [ema_from, ih]

theorem length_ewm_mean (a : ℚ) (c : List ℚ) :
    (ewm_mean a c).length = c.length := by
  cases c with
  | nil => rfl
  | cons c cs => simp [ewm_mean, length_ema_from]

theorem length_calculate_ema (c : List ℚ) (w : ℕ) :
    (calculate_ema c w).length = c.length :=
  length_ewm_mean _ _

theorem ema_from_val_cons (a e c : ℚ) (cs : List ℚ) :
    ∀ t, ema_from_val a (ema_step a e c) cs t = ema_from_val a e (c :: cs) (t + 1) := by
  intro t
  induction t with
  | zero => simp [ema_from_val, List.getD]
  | succ t ih => simp [ema_from_val, ih, List.getD]

theorem ema_from_getElem? (a : ℚ) (cs : List ℚ) :
    ∀ (e : ℚ) (t : ℕ), t < cs.length →
      (ema_from a e cs)[t]? = some (ema_from_val a e cs t) := by
  induction cs with
  | nil => intro e t ht; simp at ht
  | cons c cs ih =>
      intro e t ht
      cases t with
      | zero => simp [ema_from, ema_from_val, List.getD]
      | succ t =>
          have ht' : t < cs.length := by simpa using ht
          simp only [ema_from, List.getElem?_cons_succ]
          rw [ih (ema_step a e c) t ht', ema_from_val_cons]

theorem ema_spec_rec_cons (a c : ℚ) (cs : List ℚ) :
    ∀ t, ema_spec_rec a (c :: cs) (t + 1) = ema_from_val a c cs t := by
  intro t
  induction t with
  | zero => simp [ema_spec_rec, ema_from_val, ema_step, List.getD]
  | succ t ih =>
      have hstep : ema_spec_rec a (c :: cs) (t + 1 + 1)
          = a * (c :: cs).getD (t + 1 + 1) 0 +
            (1 - a) * ema_spec_rec a (c :: cs) (t + 1) := rfl
      rw [hstep, ih]
      simp [ema_from_val, ema_step, List.getD_cons_succ]

theorem ewm_mean_getElem? (a : ℚ) (c : List ℚ) (t : ℕ) (ht : t < c.length) :
    (ewm_mean a c)[t]? = some (ema_spec_rec a c t) := by
  cases c with
  | nil => simp at ht
  | cons c cs =>
      cases t with
      | zero => simp [ewm_mean, ema_spec_rec, List.getD]
      | succ t =>
          have ht' : t < cs.length := by simpa using ht
          simp only [ewm_mean, List.getElem?_cons_succ]
          rw [ema_from_getElem? a cs c t ht', ema_spec_rec_cons]

theorem calculate_ema_getElem? (c : List ℚ) (w : ℕ) (t : ℕ) (ht : t < c.length) :
    (calculate_ema c w)[t]? = some (ema_spec_rec (2 / ((w : ℚ) + 1)) c t) :=
  ewm_mean_getElem? _ c t ht

theorem calculate_ema_getD (c : List ℚ) (w : ℕ) (t : ℕ) (ht : t < c.length) :
    (calculate_ema c w).getD t 0 = ema_spec_rec (2 / ((w : ℚ) + 1)) c t := by
  simp [List.getD_eq_getElem?_getD, calculate_ema_getElem? c w t ht]

theorem ilocNeg_eq_getD (l : List ℚ) (k : ℕ) (h : k < l.length) :
    ilocNeg l k = some (l.getD (l.length - 1 - k) 0) := by
  unfold ilocNeg
  rw [List.getElem?_reverse h]
  simp [List.getD_eq_getElem?_getD,
    List.getElem?_eq_getElem (show l.length - 1 - k < l.length by omega)]

/-- When no `iloc` access is out of range, the short-circuited if/elif
of `get_signals` equals the conjunctive crossover test. -/
theorem signal_branches (f1 s1 f2 s2 : ℚ) :
    (if s1 < f1 then
        (if f2 ≤ s2 then some Signal.buy else some Signal.none)
      else if f1 < s1 then
        (if s2 ≤ f2 then some Signal.sell else some Signal.none)
      else some Signal.none) =
      (if s1 < f1 ∧ f2 ≤ s2 then some Signal.buy
        else if f1 < s1 ∧ s2 ≤ f2 then some Signal.sell
        else some Signal.none) := by
  rcases lt_trichotomy s1 f1 with h1 | h1 | h1
  · have h3 : ¬ f1 < s1 := lt_asymm h1
    by_cases h2 : f2 ≤ s2 <;> simp [h1, h2, h3]
  · have h3 : ¬ s1 < f1 := by rw [h1]; exact lt_irrefl _
    have h4 : ¬ f1 < s1 := by rw [h1]; exact lt_irrefl _
    simp [h3, h4]
  · have h3 : ¬ s1 < f1 := lt_asymm h1
    by_cases h4 : s2 ≤ f2 <;> simp [h1, h3, h4]

/-- With at least two rows, `get_signals` is the crossover test on the
last and second-to-last values of the two EMA series. -/
theorem get_signals_spec (close : List ℚ) (h : 2 ≤ close.length) :
    get_signals close =
      (if (calculate_ema close 200).getD (close.length - 1) 0 <
            (calculate_ema close 50).getD (close.length - 1) 0 ∧
          (calculate_ema close 50).getD (close.length - 2) 0 ≤
            (calculate_ema close 200).getD (close.length - 2) 0
        then some Signal.buy
        else if (calculate_ema close 50).getD (close.length - 1) 0 <
            (calculate_ema close 200).getD (close.length - 1) 0 ∧
          (calculate_ema close 200).getD (close.length - 2) 0 ≤
            (calculate_ema close 50).getD (close.length - 2) 0
        then some Signal.sell
        else some Signal.none) := by
  have h50 : (calculate_ema close 50).length = close.length :=
    length_calculate_ema _ _
  have h200 : (calculate_ema close 200).length = close.length :=
    length_calculate_ema _ _
  simp only [get_signals]
  rw [ilocNeg_eq_getD _ 0 (by omega), ilocNeg_eq_getD _ 0 (by omega),
    ilocNeg_eq_getD _ 1 (by omega), ilocNeg_eq_getD _ 1 (by omega),
    h50, h200]
  have e1 : close.length - 1 - 0 = close.length - 1 := by omega
  have e2 : close.length - 1 - 1 = close.length - 2 := by omega
  rw [e1, e2]
  exact signal_branches _ _ _ _

theorem get_signals_isSome (close : List ℚ) (h : 2 ≤ close.length) :
    (get_signals close).isSome = true := by
  rw [get_signals_spec close h]
  split_ifs <;> rfl

/-! ## EMAs of monotone price series -/

theorem length_bars (p : ℕ → ℚ) (t : ℕ) : (bars p t).length = t + 1 := by
  simp [bars]

theorem bars_getD (p : ℕ → ℚ) (n t : ℕ) (h : t ≤ n) :
    (bars p n).getD t 0 = p t := by
  simp [bars, List.getD_eq_getElem?_getD, List.getElem?_map,
    List.getElem?_range (show t < n + 1 by omega)]

theorem ema_spec_rec_bars (a : ℚ) (p : ℕ → ℚ) (n : ℕ) :
    ∀ t, t ≤ n → ema_spec_rec a (bars p n) t = emaF a p t := by
  intro t
  induction t with
  | zero =>
      intro h
      show (bars p n).getD 0 0 = p 0
      exact bars_getD p n 0 (by omega)
  | succ t ih =>
      intro h
      show a * (bars p n).getD (t + 1) 0 + (1 - a) * ema_spec_rec a (bars p n) t
          = a * p (t + 1) + (1 - a) * emaF a p t
      rw [bars_getD p n (t + 1) h, ih (by omega)]

theorem alpha_fifty : (2 : ℚ) / (((50 : ℕ) : ℚ) + 1) = 2 / 51 := by norm_num

theorem alpha_two_hundred : (2 : ℚ) / (((200 : ℕ) : ℚ) + 1) = 2 / 201 := by
  norm_num

/-- Evaluation of `get_signals` on the first `t+2` bars of a price series, written in
terms of the EMA recurrences. -/
theorem get_signals_bars_succ (p : ℕ → ℚ) (t : ℕ) :
    get_signals (bars p (t + 1)) =
      (if emaF (2 / 201) p (t + 1) < emaF (2 / 51) p (t + 1) ∧
          emaF (2 / 51) p t ≤ emaF (2 / 201) p t
        then some Signal.buy
        else if emaF (2 / 51) p (t + 1) < emaF (2 / 201) p (t + 1) ∧
            emaF (2 / 201) p t ≤ emaF (2 / 51) p t
          then some Signal.sell
          else some Signal.none) := by
  have hlen : (bars p (t + 1)).length = t + 2 := length_bars p (t + 1)
  have hval : ∀ w : ℕ, ∀ s : ℕ, s ≤ t + 1 →
      (calculate_ema (bars p (t + 1)) w).getD s 0 =
        emaF (2 / ((w : ℚ) + 1)) p s := by
    intro w s hs
    rw [calculate_ema_getD _ w s (by rw [hlen]; omega),
      ema_spec_rec_bars _ p (t + 1) s hs]
  rw [get_signals_spec (bars p (t + 1)) (by rw [hlen]; omega), hlen]
  have e1 : t + 2 - 1 = t + 1 := rfl
  have e2 : t + 2 - 2 = t := rfl
  rw [e1, e2, hval 50 (t + 1) (le_refl _), hval 200 (t + 1) (le_refl _),
    hval 50 t (by omega), hval 200 t (by omega), alpha_fifty,
    alpha_two_hundred]

/-- The EMA of a monotone series never exceeds the current price. -/
theorem emaF_le_self (a : ℚ) (ha : a ≤ 1) (p : ℕ → ℚ) (hp : Monotone p) :
    ∀ t, emaF a p t ≤ p t := by
  intro t
  induction t with
  | zero => exact le_refl _
  | succ t ih =>
      have hmono : p t ≤ p (t + 1) := hp (Nat.le_succ t)
      have h1a : (0 : ℚ) ≤ 1 - a := by linarith
      have h2 : (1 - a) * emaF a p t ≤ (1 - a) * p (t + 1) :=
        mul_le_mul_of_nonneg_left (le_trans ih hmono) h1a
      have h3 : a * p (t + 1) + (1 - a) * p (t + 1) = p (t + 1) := by ring
      show a * p (t + 1) + (1 - a) * emaF a p t ≤ p (t + 1)
      linarith [h2, h3]

/-- On a strictly increasing series the EMA with the larger smoothing
factor dominates. -/
theorem emaF_le_emaF (a b : ℚ) (hb : b < a) (ha : a ≤ 1) (p : ℕ → ℚ)
    (hp : StrictMono p) : ∀ t, emaF b p t ≤ emaF a p t := by
  intro t
  induction t with
  | zero => exact le_refl _
  | succ t ih =>
      have hEb : emaF b p t ≤ p t :=
        emaF_le_self b (by linarith) p hp.monotone t
      have hpt : p t < p (t + 1) := hp (Nat.lt_succ_self t)
      have h1a : (0 : ℚ) ≤ 1 - a := by linarith
      have h1 : (1 - a) * emaF b p t ≤ (1 - a) * emaF a p t :=
        mul_le_mul_of_nonneg_left ih h1a
      have h2 : (0 : ℚ) < (a - b) * (p (t + 1) - emaF b p t) :=
        mul_pos (by linarith) (by linarith)
      show b * p (t + 1) + (1 - b) * emaF b p t ≤
        a * p (t + 1) + (1 - a) * emaF a p t
      nlinarith [h1, h2]

/-- On a strictly increasing series the EMA with the larger smoothing
factor is strictly above from bar 1 on. -/
theorem emaF_lt_emaF (a b : ℚ) (hb : b < a) (ha : a ≤ 1) (p : ℕ → ℚ)
    (hp : StrictMono p) (t : ℕ) : emaF b p (t + 1) < emaF a p (t + 1) := by
  have ih := emaF_le_emaF a b hb ha p hp t
  have hEb : emaF b p t ≤ p t := emaF_le_self b (by linarith) p hp.monotone t
  have hpt : p t < p (t + 1) := hp (Nat.lt_succ_self t)
  have h1a : (0 : ℚ) ≤ 1 - a := by linarith
  have h1 : (1 - a) * emaF b p t ≤ (1 - a) * emaF a p t :=
    mul_le_mul_of_nonneg_left ih h1a
  have h2 : (0 : ℚ) < (a - b) * (p (t + 1) - emaF b p t) :=
    mul_pos (by linarith) (by linarith)
  show b * p (t + 1) + (1 - b) * emaF b p t <
    a * p (t + 1) + (1 - a) * emaF a p t
  nlinarith [h1, h2]

theorem emaF_neg (a : ℚ) (p : ℕ → ℚ) :
    ∀ t, emaF a (fun n => -(p n)) t = -(emaF a p t) := by
  intro t
  induction t with
  | zero => rfl
  | succ t ih =>
      show a * -(p (t + 1)) + (1 - a) * emaF a (fun n => -(p n)) t = _
      rw [ih]
      show _ = -(a * p (t + 1) + (1 - a) * emaF a p t)
      ring

/-- If the fast EMA is strictly above the slow EMA from bar 1 on, the
crossover happens exactly at bar 1, the calculator says Buy there and
None at every later bar. -/
theorem signals_of_fast_above (p : ℕ → ℚ)
    (hlt : ∀ t, emaF (2 / 201) p (t + 1) < emaF (2 / 51) p (t + 1)) :
    (∀ t, 1 ≤ t → (crossAbove p t ↔ t = 1)) ∧
    get_signals (bars p 1) = some Signal.buy ∧
    (∀ t, 2 ≤ t → get_signals (bars p t) = some Signal.none) := by
  have heq0 : emaF (2 / 51) p 0 = emaF (2 / 201) p 0 := rfl
  refine ⟨?_, ?_, ?_⟩
  · intro t ht
    obtain ⟨s, rfl⟩ : ∃ s, t = s + 1 := ⟨t - 1, by omega⟩
    constructor
    · intro hc
      cases s with
      | zero => rfl
      | succ s =>
          exfalso
          have hle := hc.1
          have : s + 1 + 1 - 1 = s + 1 := rfl
          rw [this] at hle
          exact absurd hle (not_le.mpr (hlt s))
    · intro hs1
      have hs0 : s = 0 := by omega
      subst hs0
      exact ⟨le_of_eq heq0, hlt 0⟩
  · have h := get_signals_bars_succ p 0
    rw [h, if_pos ⟨hlt 0, le_of_eq heq0⟩]
  · intro t ht
    obtain ⟨s, rfl⟩ : ∃ s, t = s + 2 := ⟨t - 2, by omega⟩
    have h := get_signals_bars_succ p (s + 1)
    rw [h, if_neg, if_neg]
    · intro hc
      exact absurd hc.1 (not_lt.mpr (le_of_lt (hlt (s + 1))))
    · intro hc
      exact absurd hc.2 (not_le.mpr (hlt s))

/-- If the fast EMA is strictly below the slow EMA from bar 1 on, the
crossover happens exactly at bar 1, the calculator says Sell there and
None at every later bar. -/
theorem signals_of_fast_below (p : ℕ → ℚ)
    (hlt : ∀ t, emaF (2 / 51) p (t + 1) < emaF (2 / 201) p (t + 1)) :
    (∀ t, 1 ≤ t → (crossBelow p t ↔ t = 1)) ∧
    get_signals (bars p 1) = some Signal.sell ∧
    (∀ t, 2 ≤ t → get_signals (bars p t) = some Signal.none) := by
  have heq0 : emaF (2 / 201) p 0 = emaF (2 / 51) p 0 := rfl
  refine ⟨?_, ?_, ?_⟩
  · intro t ht
    obtain ⟨s, rfl⟩ : ∃ s, t = s + 1 := ⟨t - 1, by omega⟩
    constructor
    · intro hc
      cases s with
      | zero => rfl
      | succ s =>
          exfalso
          have hle := hc.1
          have : s + 1 + 1 - 1 = s + 1 := rfl
          rw [this] at hle
          exact absurd hle (not_le.mpr (hlt s))
    · intro hs1
      have hs0 : s = 0 := by omega
      subst hs0
      exact ⟨le_of_eq heq0, hlt 0⟩
  · have h := get_signals_bars_succ p 0
    rw [h, if_neg, if_pos ⟨hlt 0, le_of_eq heq0⟩]
    intro hc
    exact absurd hc.1 (not_lt.mpr (le_of_lt (hlt 0)))
  · intro t ht
    obtain ⟨s, rfl⟩ : ∃ s, t = s + 2 := ⟨t - 2, by omega⟩
    have h := get_signals_bars_succ p (s + 1)
    rw [h, if_neg, if_neg]
    · intro hc
      exact absurd hc.2 (not_le.mpr (hlt s))
    · intro hc
      exact absurd hc.1 (not_lt.mpr (le_of_lt (hlt (s + 1))))

/-! ## The claims -/

/-- C1: with at least 2 bars, `get_signals` returns Buy exactly when the
fast (50-window) EMA is strictly above the slow (200-window) EMA at the
last bar and was `≤` it at the second-to-last bar; Sell exactly in the
mirrored case; and None in every other case. -/
theorem get_signals_crossover_iff (close : List ℚ) (h : 2 ≤ close.length) :
    (get_signals close = some Signal.buy ↔
      ((calculate_ema close 200).getD (close.length - 1) 0 <
          (calculate_ema close 50).getD (close.length - 1) 0 ∧
        (calculate_ema close 50).getD (close.length - 2) 0 ≤
          (calculate_ema close 200).getD (close.length - 2) 0)) ∧
    (get_signals close = some Signal.sell ↔
      ((calculate_ema close 50).getD (close.length - 1) 0 <
          (calculate_ema close 200).getD (close.length - 1) 0 ∧
        (calculate_ema close 200).getD (close.length - 2) 0 ≤
          (calculate_ema close 50).getD (close.length - 2) 0)) ∧
    (get_signals close = some Signal.none ↔
      (¬((calculate_ema close 200).getD (close.length - 1) 0 <
          (calculate_ema close 50).getD (close.length - 1) 0 ∧
        (calculate_ema close 50).getD (close.length - 2) 0 ≤
          (calculate_ema close 200).getD (close.length - 2) 0) ∧
       ¬((calculate_ema close 50).getD (close.length - 1) 0 <
          (calculate_ema close 200).getD (close.length - 1) 0 ∧
        (calculate_ema close 200).getD (close.length - 2) 0 ≤
          (calculate_ema close 50).getD (close.length - 2) 0))) := by
  rw [get_signals_spec close h]
  by_cases hb : (calculate_ema close 200).getD (close.length - 1) 0 <
      (calculate_ema close 50).getD (close.length - 1) 0 ∧
    (calculate_ema close 50).getD (close.length - 2) 0 ≤
      (calculate_ema close 200).getD (close.length - 2) 0
  · have hns : ¬((calculate_ema close 50).getD (close.length - 1) 0 <
        (calculate_ema close 200).getD (close.length - 1) 0 ∧
      (calculate_ema close 200).getD (close.length - 2) 0 ≤
        (calculate_ema close 50).getD (close.length - 2) 0) :=
      fun hs => absurd hs.1 (lt_asymm hb.1)
    rw [if_pos hb]
    exact ⟨iff_of_true rfl hb, iff_of_false (by simp) hns,
      iff_of_false (by simp) (fun hcon => hcon.1 hb)⟩
  · rw [if_neg hb]
    by_cases hs : (calculate_ema close 50).getD (close.length - 1) 0 <
        (calculate_ema close 200).getD (close.length - 1) 0 ∧
      (calculate_ema close 200).getD (close.length - 2) 0 ≤
        (calculate_ema close 50).getD (close.length - 2) 0
    · rw [if_pos hs]
      exact ⟨iff_of_false (by simp) hb, iff_of_true rfl hs,
        iff_of_false (by simp) (fun hcon => hcon.2 hs)⟩
    · rw [if_neg hs]
      exact ⟨iff_of_false (by simp) hb, iff_of_false (by simp) hs,
        iff_of_true rfl ⟨hb, hs⟩⟩

theorem get_signals_crossover_iff_witness :
    get_signals [1, 2] = some Signal.buy ↔
      ((calculate_ema [1, 2] 200).getD 1 0 <
          (calculate_ema [1, 2] 50).getD 1 0 ∧
        (calculate_ema [1, 2] 50).getD 0 0 ≤
          (calculate_ema [1, 2] 200).getD 0 0) :=
  (get_signals_crossover_iff [1, 2] (by norm_num)).1

/-- C2: for every window `w ≥ 1` and non-empty closing-price sequence,
`calculate_ema` agrees at every index with the recurrence `e₀ = c₀`,
`eₜ = a·cₜ + (1-a)·eₜ₋₁`, smoothing factor `a = 2/(w+1)`, seeded from
the first value with no bias adjustment. -/
theorem calculate_ema_matches_recurrence (w : ℕ) (close : List ℚ) (t : ℕ)
    (_hw : 1 ≤ w) (_hne : close ≠ []) (ht : t < close.length) :
    (calculate_ema close w)[t]? =
      some (ema_spec_rec (2 / ((w : ℚ) + 1)) close t) :=
  calculate_ema_getElem? close w t ht

theorem calculate_ema_matches_recurrence_witness :
    (calculate_ema [1, 2] 50)[1]? =
      some (ema_spec_rec (2 / (((50 : ℕ) : ℚ) + 1)) [1, 2] 1) :=
  calculate_ema_matches_recurrence 50 [1, 2] 1 (by norm_num) (by simp)
    (by norm_num)

/-- C3: on a strictly increasing price series the fast (50) EMA flips
above the slow (200) EMA exactly once, namely between bars 0 and 1, the
calculator emits Buy when evaluated ending at that crossover bar and
None when evaluated ending at every later bar; symmetrically, on a
strictly decreasing series it emits Sell at the crossover bar and None
at every later bar. -/
theorem monotone_series_single_crossover (p : ℕ → ℚ) :
    (StrictMono p →
      (∀ t, 1 ≤ t → (crossAbove p t ↔ t = 1)) ∧
      get_signals (bars p 1) = some Signal.buy ∧
      (∀ t, 2 ≤ t → get_signals (bars p t) = some Signal.none)) ∧
    (StrictAnti p →
      (∀ t, 1 ≤ t → (crossBelow p t ↔ t = 1)) ∧
      get_signals (bars p 1) = some Signal.sell ∧
      (∀ t, 2 ≤ t → get_signals (bars p t) = some Signal.none)) := by
  constructor
  · intro hp
    exact signals_of_fast_above p (fun t =>
      emaF_lt_emaF (2 / 51) (2 / 201) (by norm_num) (by norm_num) p hp t)
  · intro hp
    have hq : StrictMono (fun n => -(p n)) := fun i j hij => neg_lt_neg (hp hij)
    refine signals_of_fast_below p (fun t => ?_)
    have h := emaF_lt_emaF (2 / 51) (2 / 201) (by norm_num) (by norm_num)
      (fun n => -(p n)) hq t
    rw [emaF_neg, emaF_neg] at h
    exact neg_lt_neg_iff.mp h

theorem monotone_series_single_crossover_witness :
    get_signals (bars (fun n => (n : ℚ)) 1) = some Signal.buy ∧
      get_signals (bars (fun n => (n : ℚ)) 2) = some Signal.none ∧
      crossAbove (fun n => (n : ℚ)) 1 := by
  have h := (monotone_series_single_crossover (fun n => (n : ℚ))).1
    (fun i j hij => by show (i : ℚ) < (j : ℚ); exact_mod_cast hij)
  exact ⟨h.2.1, h.2.2 2 (le_refl 2), (h.1 1 (le_refl 1)).mpr rfl⟩

/-- C4 counterexample: the signal calculator does not require 201 bars —
on the 2-bar input `[1, 2]` it evaluates without error to a valid
signal — and the control loop's bar fetch requests only 200 bars, fewer
than 201. -/
theorem get_signals_valid_on_two_bars :
    get_signals [1, 2] = some Signal.buy ∧ ([1, 2] : List ℚ).length < 201 ∧
      ¬ 201 ≤ number_of_data := by
  refine ⟨?_, by norm_num, by norm_num [number_of_data]⟩
  simp [get_signals, calculate_ema, ewm_mean, ema_from, ema_step, ilocNeg]
  norm_num

/-- On a 1-bar input both EMA series are the seed `close[0]`, the two
`iloc[-1]` comparisons are false, the short-circuit skips every
`iloc[-2]` access, and `get_signals` returns `None` without raising. -/
theorem get_signals_singleton (c : ℚ) :
    get_signals [c] = some Signal.none := by
  have hema : ∀ w : ℕ, calculate_ema [c] w = [c] := fun w => rfl
  simp only [get_signals, hema, ilocNeg, List.reverse_singleton,
    List.getElem?_cons_zero]
  rw [if_neg (lt_irrefl c), if_neg (lt_irrefl c)]

/-- C4 (amended): the signal calculator requires at least 1 bar — on an
empty sequence the `iloc[-1]` accesses fail and no signal is produced,
while on 1 bar the comparisons short-circuit past `iloc[-2]` and it
returns the valid signal `None`, and on every sequence of at least 1
bar it returns a valid signal — and the control loop's bar fetch
requests 200 bars (`get_rates`'s `number_of_data` default), not at
least 201. -/
theorem get_signals_bar_contract :
    get_signals [] = Option.none ∧
    (∀ c : ℚ, get_signals [c] = some Signal.none) ∧
    (∀ close : List ℚ, 1 ≤ close.length → (get_signals close).isSome = true) ∧
    number_of_data = 200 := by
  refine ⟨rfl, get_signals_singleton, ?_, rfl⟩
  intro close h
  cases close with
  | nil => simp at h
  | cons c cs =>
      cases cs with
      | nil => rw [get_signals_singleton c]; rfl
      | cons c' cs' => exact get_signals_isSome _ (by simp)

theorem get_signals_bar_contract_witness :
    get_signals [(1 : ℚ)] = some Signal.none ∧
      (get_signals [1, 2]).isSome = true :=
  ⟨get_signals_bar_contract.2.1 1,
    get_signals_bar_contract.2.2.1 [1, 2] (by norm_num)⟩

/-- C5 counterexample: `get_signals` does not leave its input frame
unmodified — on a frame without EMA columns it writes the `ema_50` and
`ema_200` columns, so the frame after the call differs from the input. -/
theorem get_signals_df_mutates :
    (get_signals_df ⟨[1, 2], Option.none, Option.none⟩).1 ≠
      (⟨[1, 2], Option.none, Option.none⟩ : DataFrame) := by
  intro hEq
  have h5 := congrArg DataFrame.ema_50 hEq
  simp [get_signals_df] at h5

/-- C5 (amended): `get_signals` writes the two EMA columns into its
input frame (an in-place mutation), but it does not change the `close`
column, its returned signal is a function of the `close` column alone,
and two evaluations on frames with equal `close` columns return equal
signals. -/
theorem get_signals_df_spec (df : DataFrame) :
    (get_signals_df df).1.close = df.close ∧
    (get_signals_df df).1.ema_50 = some (calculate_ema df.close 50) ∧
    (get_signals_df df).1.ema_200 = some (calculate_ema df.close 200) ∧
    (get_signals_df df).2 = get_signals df.close ∧
    (∀ df' : DataFrame, df.close = df'.close →
      (get_signals_df df).2 = (get_signals_df df').2) := by
  refine ⟨rfl, rfl, rfl, rfl, ?_⟩
  intro df' hc
  simp [get_signals_df, hc]

theorem get_signals_df_spec_witness :
    (get_signals_df ⟨[1, 2], Option.none, Option.none⟩).1.close = [1, 2] ∧
      (get_signals_df ⟨[1, 2], Option.none, Option.none⟩).2 =
        (get_signals_df ⟨[1, 2], some [3], some [4]⟩).2 :=
  ⟨(get_signals_df_spec _).1, (get_signals_df_spec _).2.2.2.2 _ rfl⟩

/-- C6: `calculate_position_size b r` equals `b * (r / 100)`, and the
position size is linear in the balance and in the risk percentage:
scaling either argument by `k` scales the result by `k`. -/
theorem calculate_position_size_linear (b r k : ℚ) :
    calculate_position_size b r = b * (r / 100) ∧
    calculate_position_size (k * b) r = k * calculate_position_size b r ∧
    calculate_position_size b (k * r) = k * calculate_position_size b r := by
  unfold calculate_position_size
  exact ⟨rfl, by ring, by ring⟩

/-- C7: for a positive entry price and positive stop-loss/take-profit
percentages, `set_stop_loss_and_take_profit` returns
`(p*(1-s), p*(1+t))` with `sl < p < tp` for Buy, and `(p*(1+s), p*(1-t))`
with `tp < p < sl` for Sell. -/
theorem set_sl_tp_spec (p s t : ℚ) (hp : 0 < p) (hs : 0 < s) (ht : 0 < t) :
    set_stop_loss_and_take_profit p Signal.buy s t =
      (p * (1 - s), p * (1 + t)) ∧
    (set_stop_loss_and_take_profit p Signal.buy s t).1 < p ∧
    p < (set_stop_loss_and_take_profit p Signal.buy s t).2 ∧
    set_stop_loss_and_take_profit p Signal.sell s t =
      (p * (1 + s), p * (1 - t)) ∧
    (set_stop_loss_and_take_profit p Signal.sell s t).2 < p ∧
    p < (set_stop_loss_and_take_profit p Signal.sell s t).1 := by
  have hbuy : set_stop_loss_and_take_profit p Signal.buy s t =
      (p * (1 - s), p * (1 + t)) := rfl
  have hsell : set_stop_loss_and_take_profit p Signal.sell s t =
      (p * (1 + s), p * (1 - t)) := rfl
  refine ⟨hbuy, ?_, ?_, hsell, ?_, ?_⟩ <;> simp only [hbuy, hsell] <;>
    nlinarith [mul_pos hp hs, mul_pos hp ht]

theorem set_sl_tp_spec_witness :
    (set_stop_loss_and_take_profit 100 Signal.buy (2 / 100) (4 / 100)).1 <
        100 ∧
      100 < (set_stop_loss_and_take_profit 100 Signal.buy (2 / 100)
        (4 / 100)).2 :=
  ⟨(set_sl_tp_spec 100 (2 / 100) (4 / 100) (by norm_num) (by norm_num)
      (by norm_num)).2.1,
    (set_sl_tp_spec 100 (2 / 100) (4 / 100) (by norm_num) (by norm_num)
      (by norm_num)).2.2.1⟩

/-- C8: for a position with positive volume, `adjust_stop_loss` sends a
request moving the stop-loss to the entry price exactly when profit per
unit volume is `≥ 2%` of the entry price: at exactly the threshold it
triggers, and strictly below it nothing is sent. -/
theorem adjust_stop_loss_spec (pos : Position) (_hv : 0 < pos.volume) :
    (adjust_stop_loss pos = some ⟨pos.ticket, pos.price_open⟩ ↔
      pos.price_open * (2 / 100) ≤ pos.profit / pos.volume) ∧
    (pos.profit / pos.volume = pos.price_open * (2 / 100) →
      adjust_stop_loss pos = some ⟨pos.ticket, pos.price_open⟩) ∧
    (pos.profit / pos.volume < pos.price_open * (2 / 100) →
      adjust_stop_loss pos = Option.none) := by
  unfold adjust_stop_loss
  refine ⟨?_, ?_, ?_⟩
  · split_ifs with hcond <;> simp [hcond]
  · intro heq; rw [if_pos (le_of_eq heq.symm)]
  · intro hlt; rw [if_neg (not_le.mpr hlt)]

theorem adjust_stop_loss_spec_witness :
    adjust_stop_loss ⟨7, 1, 100, 2⟩ = some ⟨7, 100⟩ :=
  (adjust_stop_loss_spec ⟨7, 1, 100, 2⟩ (by norm_num)).2.1 (by norm_num)

/-- C9: the trading-hours check returns `true` exactly when the time of
day (in the configured timezone) lies between 08:00 and 12:00, measured
in microseconds since midnight, inclusive at both boundaries. -/
theorem is_within_trading_hours_spec (now : TimeOfDay)
    (hm : now.minute < 60) (hs : now.second < 60)
    (hu : now.microsecond < 1000000) :
    (is_within_trading_hours now = true ↔
      28800000000 ≤ now.toMicro ∧ now.toMicro ≤ 43200000000) ∧
    is_within_trading_hours trading_start = true ∧
    is_within_trading_hours trading_end = true := by
  refine ⟨?_, by decide, by decide⟩
  simp only [is_within_trading_hours, TimeOfDay.le, trading_start,
    trading_end, TimeOfDay.toMicro, decide_eq_true_eq]
  omega

theorem is_within_trading_hours_spec_witness :
    is_within_trading_hours ⟨11, 59, 59, 999999⟩ = true :=
  (is_within_trading_hours_spec ⟨11, 59, 59, 999999⟩ (by norm_num)
      (by norm_num) (by norm_num)).1.mpr (by decide)

/-- C10: when the clock is inside the trading window and the
`account_info()` fetch returns `None`, the loop iteration logs the error
and restarts at once: nothing else runs — in particular no position is
re-evaluated by `adjust_stop_loss` and neither the 4-hour sleep nor the
60-second exception backoff occurs. -/
theorem account_info_failure_restarts_cycle (env : Env)
    (hw : env.withinHours = true) (ha : env.accountInfo = Option.none) :
    main_iteration env = [Action.logError] ∧
    (∀ s, Action.sleep s ∉ main_iteration env) ∧
    (∀ t, Action.adjust t ∉ main_iteration env) := by
  have hmain : main_iteration env = [Action.logError] := by
    unfold main_iteration
    rw [hw, ha]
    simp
  refine ⟨hmain, ?_, ?_⟩ <;> intro x <;> rw [hmain] <;> simp

theorem account_info_failure_restarts_cycle_witness :
    main_iteration ⟨true, Option.none, Option.none, [], false⟩ =
      [Action.logError] :=
  (account_info_failure_restarts_cycle
    ⟨true, Option.none, Option.none, [], false⟩ rfl rfl).1

end EMABot
